import Mathlib

/-
Verification of the caseClipper content-analysis and persistence pipeline.

The Python sources (src/data_parser.py, src/clipboard_monitor.py,
src/context_processor.py, src/file_manager.py) are shallowly embedded here:

* text is a `List Char` (ASCII semantics for the regex character classes:
  Python's \d, \s, \w and str.lower are Unicode-aware, inputs are modelled
  as ASCII);
* the regular expressions of `DataParser.PATTERNS` are embedded as explicit
  leftmost-match scanning functions with the same backtracking behaviour
  (the patterns only combine literals with character-class stars whose
  classes are disjoint from the class that follows, plus a non-greedy dot
  in the ICM pattern, so each search has a unique canonical match);
* the output directory is an association list from file names to contents;
  a lookup sees the most recent write, matching what a reader of the
  directory observes between operations;
* the temp-file/rename structure of the file manager is embedded separately
  as a trace of primitive file-system operations (`FsOp`).
-/

namespace CaseClipper

/-! ## Character classes (ASCII semantics of Python's re classes) -/

/-- Python `\s` over ASCII: space, tab, newline, carriage return,
vertical tab, form feed. -/
def isSpaceC (c : Char) : Bool :=
  c = ' ' || c = '\t' || c = '\n' || c = '\r' || c = '\x0b' || c = '\x0c'

/-- Python `\d` over ASCII. -/
def isDigitC (c : Char) : Bool :=
  '0' ≤ c && c ≤ '9'

/-- Python `\w` over ASCII: letters, digits, underscore. -/
def isWordC (c : Char) : Bool :=
  ('a' ≤ c && c ≤ 'z') || ('A' ≤ c && c ≤ 'Z') || isDigitC c || c = '_'

/-- ASCII lower-casing of one character (Python str.lower on ASCII). -/
def lowerC (c : Char) : Char :=
  if 'A' ≤ c && c ≤ 'Z' then Char.ofNat (c.toNat + 32) else c

/-- Lower-case a whole text. -/
def lowerL (s : List Char) : List Char :=
  s.map lowerC

/-! ## List-of-char string utilities -/

/-- Boolean prefix test on character lists. -/
def isPrefixL : List Char → List Char → Bool
  | [], _ => true
  | _ :: _, [] => false
  | a :: as, b :: bs => a = b && isPrefixL as bs

/-- Boolean substring test: Python's `needle in hay`. -/
def containsL (hay needle : List Char) : Bool :=
  match hay with
  | [] => needle.isEmpty
  | _ :: t => isPrefixL needle hay || containsL t needle

/-- Case-insensitive literal match at the head of the text; returns the
rest of the text after the literal. -/
def matchLiteralCI : List Char → List Char → Option (List Char)
  | [], rest => some rest
  | _ :: _, [] => none
  | p :: ps, c :: cs => if lowerC c = lowerC p then matchLiteralCI ps cs else none

/-- First `some` of a list of attempts, in order (ordered fallback chain). -/
def firstSome {α : Type} : List (Option α) → Option α
  | [] => none
  | o :: os =>
    match o with
    | some v => some v
    | none => firstSome os

/-- Generic leftmost search: try `matchAt` at every start position, left to
right, exactly like `re.search` scanning start positions. -/
def searchWith {α : Type} (matchAt : List Char → Option α) : List Char → Option α
  | [] => matchAt []
  | c :: cs =>
    match matchAt (c :: cs) with
    | some v => some v
    | none => searchWith matchAt cs

/-! ## data_parser.py : DataParser -/

/-- The nine-digit check for the ICM capture: the next nine characters
exist and are digits (`\d{9}` can stop inside a longer digit run). -/
def nineDigitsAt (cs : List Char) : Bool :=
  (cs.take 9).length = 9 && (cs.take 9).all isDigitC

/-- The `.*?(\d{9})` part of the ICM pattern: expand the non-greedy dot one
non-newline character at a time until nine digits follow. -/
def icmScan : List Char → Option (List Char)
  | [] => none
  | c :: cs =>
    if nineDigitsAt (c :: cs) then some ((c :: cs).take 9)
    else if c = '\n' then none
    else icmScan cs

/-- One start position of `ICM.*?(\d{9})` (re.IGNORECASE). -/
def icmMatchAt (cs : List Char) : Option (List Char) :=
  match matchLiteralCI "icm".toList cs with
  | none => none
  | some rest => icmScan rest

/-- `PATTERNS['icm_id']`: leftmost match of `ICM.*?(\d{9})`, capture. -/
def icmSearch (text : List Char) : Option (List Char) :=
  searchWith icmMatchAt text

/-- Shared tail of the case-id patterns: a greedy digit run of length at
least 13 (`(\d{13,})`), returned as the capture. -/
def digits13 (cs : List Char) : Option (List Char) :=
  let run := cs.takeWhile isDigitC
  if 13 ≤ run.length then some run else none

/-- One start position of `Support Request Number:\s*(\d{13,})`. -/
def caseMatchAt (cs : List Char) : Option (List Char) :=
  match matchLiteralCI "support request number:".toList cs with
  | none => none
  | some rest => digits13 (rest.dropWhile isSpaceC)

/-- One start position of `Case[:\s#]*(\d{13,})`. -/
def altCaseMatchAt (cs : List Char) : Option (List Char) :=
  match matchLiteralCI "case".toList cs with
  | none => none
  | some rest => digits13 (rest.dropWhile (fun c => c = ':' || c = '#' || isSpaceC c))

/-- One start position of `CRI[:\s]*(\d{13,})`. -/
def criMatchAt (cs : List Char) : Option (List Char) :=
  match matchLiteralCI "cri".toList cs with
  | none => none
  | some rest => digits13 (rest.dropWhile (fun c => c = ':' || isSpaceC c))

/-- `\b(\d{13,})\b` at one position: previous character (if any) is not a
word character, a maximal digit run of length ≥ 13 starts here, and the
character after the run (if any) is not a word character. -/
def simpleCaseMatchAt (prev : Option Char) (cs : List Char) : Option (List Char) :=
  if (prev.map isWordC).getD false then none
  else
    let run := cs.takeWhile isDigitC
    let rest := cs.drop run.length
    if 13 ≤ run.length && !((rest.head?.map isWordC).getD false) then some run else none

/-- Leftmost search for `\b(\d{13,})\b`, threading the previous character
for the left word boundary. -/
def simpleCaseSearchFrom (prev : Option Char) : List Char → Option (List Char)
  | [] => none
  | c :: cs =>
    match simpleCaseMatchAt prev (c :: cs) with
    | some v => some v
    | none => simpleCaseSearchFrom (some c) cs

/-- `PATTERNS['case_id']`: leftmost match of the primary pattern. -/
def caseIdSearch (text : List Char) : Option (List Char) :=
  searchWith caseMatchAt text

/-- `PATTERNS['alternative_case']`. -/
def altCaseSearch (text : List Char) : Option (List Char) :=
  searchWith altCaseMatchAt text

/-- `PATTERNS['cri_pattern']`. -/
def criSearch (text : List Char) : Option (List Char) :=
  searchWith criMatchAt text

/-- `PATTERNS['simple_case']`. -/
def simpleCaseSearch (text : List Char) : Option (List Char) :=
  simpleCaseSearchFrom none text

/-- Result dictionary of `DataParser.extract_case_ids`. -/
structure CaseIds where
  icm_id : Option (List Char)
  case_id : Option (List Char)
deriving DecidableEq, Repr

/-- `DataParser.extract_case_ids`: the ICM search plus the ordered
if/else fallback chain for the case id, exactly as written in the source. -/
def extract_case_ids (text : List Char) : CaseIds :=
  if text.isEmpty then { icm_id := none, case_id := none }
  else
    let icm := icmSearch text
    let caseId :=
      match caseIdSearch text with
      | some v => some v
      | none =>
        match altCaseSearch text with
        | some v => some v
        | none =>
          match criSearch text with
          | some v => some v
          | none => simpleCaseSearch text
    { icm_id := icm, case_id := caseId }

/-- `DataParser.is_valid_case_data`. -/
def is_valid_case_data (text : List Char) : Bool :=
  if text.isEmpty then false
  else
    let ids := extract_case_ids text
    ids.icm_id.isSome || ids.case_id.isSome

/-- `DataParser.generate_filename`. -/
def generate_filename (text : List Char) : Option (List Char) :=
  let ids := extract_case_ids text
  match ids.icm_id, ids.case_id with
  | some i, some c => some (i ++ '_' :: c ++ ".txt".toList)
  | some i, none => some ("ICM_".toList ++ i ++ ".txt".toList)
  | none, some c => some ("Case_".toList ++ c ++ ".txt".toList)
  | none, none => none

/-! ## context_processor.py : ContextProcessor -/

/-- Python `keyword in content_lower` for one keyword. -/
def hasKeyword (contentLower : List Char) (kw : List Char) : Bool :=
  containsL contentLower kw

/-- Python `any(keyword in content_lower for keyword in kws)`. -/
def anyKeyword (contentLower : List Char) (kws : List (List Char)) : Bool :=
  kws.any (fun kw => hasKeyword contentLower kw)

/-- Keyword sets of `_classify_content_type`, in source order. -/
def errorKws : List (List Char) :=
  ["error".toList, "exception".toList, "failed".toList, "failure".toList]

def criticalKws : List (List Char) :=
  ["critical".toList, "urgent".toList, "emergency".toList]

def resolutionKws : List (List Char) :=
  ["resolution".toList, "solution".toList, "fix".toList, "resolved".toList]

def problemKws : List (List Char) :=
  ["symptom".toList, "issue".toList, "problem".toList]

def customerKws : List (List Char) :=
  ["customer".toList, "client".toList, "user".toList]

def temporalKws : List (List Char) :=
  ["timeline".toList, "schedule".toList, "date".toList, "time".toList]

def configurationKws : List (List Char) :=
  ["configuration".toList, "settings".toList, "setup".toList]

/-- `ContextProcessor._classify_content_type`: the if/elif keyword chain
exactly as written in the source. -/
def classify_content_type (content : List Char) : String :=
  let contentLower := lowerL content
  if anyKeyword contentLower errorKws then "error_information"
  else if anyKeyword contentLower criticalKws then "critical_information"
  else if anyKeyword contentLower resolutionKws then "resolution_information"
  else if anyKeyword contentLower problemKws then "problem_description"
  else if anyKeyword contentLower customerKws then "customer_information"
  else if anyKeyword contentLower temporalKws then "temporal_information"
  else if anyKeyword contentLower configurationKws then "configuration_information"
  else "general_information"

/-- Modelled from the spec: the classification as an explicit ordered list
of (keyword set, category) pairs, evaluated in fixed order with the first
matching category assigned and a default for no match. -/
def orderedCategories : List (List (List Char) × String) :=
  [(errorKws, "error_information"),
   (criticalKws, "critical_information"),
   (resolutionKws, "resolution_information"),
   (problemKws, "problem_description"),
   (customerKws, "customer_information"),
   (temporalKws, "temporal_information"),
   (configurationKws, "configuration_information")]

/-- Modelled from the spec: first matching category of an ordered
precedence list, else the default category. -/
def firstCategory (contentLower : List Char) : List (List (List Char) × String) → String
  | [] => "general_information"
  | (kws, cat) :: rest =>
    if anyKeyword contentLower kws then cat else firstCategory contentLower rest

/-- Modelled from the spec: the whole classification as the first matching
category of the fixed precedence order. -/
def classifyByOrderedList (content : List Char) : String :=
  firstCategory (lowerL content) orderedCategories

/-- `priority_keywords` of `_compile_patterns`, in dict insertion order
(high, medium, low), as iterated by `_determine_priority_level`. -/
def highPriorityKws : List (List Char) :=
  ["critical".toList, "urgent".toList, "emergency".toList, "outage".toList,
   "down".toList, "failed".toList]

def mediumPriorityKws : List (List Char) :=
  ["important".toList, "significant".toList, "major".toList, "escalation".toList]

def lowPriorityKws : List (List Char) :=
  ["minor".toList, "cosmetic".toList, "enhancement".toList, "suggestion".toList]

/-- `ContextProcessor._determine_priority_level`: the priority sets are
checked in dict insertion order high, medium, low; default normal. -/
def determine_priority_level (content : List Char) : String :=
  let contentLower := lowerL content
  if anyKeyword contentLower highPriorityKws then "high"
  else if anyKeyword contentLower mediumPriorityKws then "medium"
  else if anyKeyword contentLower lowPriorityKws then "low"
  else "normal"

/-- One entry of the protocol's `context_chunks` list
(`type`, `priority`, `summary`). -/
structure ProtoChunk where
  type : String
  priority : String
  summary : List Char
deriving DecidableEq, Repr

/-- The fields `_analyze_chunk` contributes to a protocol entry, plus the
summary truncation `content[:200] + '...'` done in
`generate_support_context_protocol`. -/
def protoEntry (content : List Char) : ProtoChunk :=
  { type := classify_content_type content,
    priority := determine_priority_level content,
    summary := if 200 < content.length then content.take 200 ++ "...".toList else content }

/-- The `context_chunks` field of
`ContextProcessor.generate_support_context_protocol`: the list
comprehension over `processed_result['chunks']` (given here as the chunk
contents in original chunk order), filtered to priority high or medium,
then cut to the first five with `[:5]`. -/
def protocol_context_chunks (chunks : List (List Char)) : List ProtoChunk :=
  (((chunks.map protoEntry).filter
      (fun e => e.priority = "high" || e.priority = "medium"))).take 5

/-! ## clipboard_monitor.py : the dedup cache of `_monitor_loop` -/

/-- One pass of the dedup block of `ClipboardMonitor._monitor_loop` for a
content hash that reached it: if the hash is cached the content is skipped;
otherwise it is added (and the content processed), and if the cache size
then exceeds 100 the cache is cleared wholesale.  Returns the new cache and
whether a clear happened.  The cache is a duplicate-free list standing for
the Python set `content_hash_cache`; hashes are `Nat`, with distinct
contents modelled as having distinct hashes. -/
def dedup_step (cache : List Nat) (h : Nat) : List Nat × Bool :=
  if h ∈ cache then (cache, false)
  else if 100 < (h :: cache).length then ([], true)
  else (h :: cache, false)

/-- Run the dedup block over a sequence of content hashes, starting from a
given cache, remembering whether any clear happened. -/
def run_dedup_from (cache : List Nat) (cleared : Bool) : List Nat → List Nat × Bool
  | [] => (cache, cleared)
  | h :: hs =>
    let s := dedup_step cache h
    run_dedup_from s.1 (cleared || s.2) hs

/-- A monitoring session: the dedup cache starts empty. -/
def run_dedup (hs : List Nat) : List Nat × Bool :=
  run_dedup_from [] false hs

/-! ## file_manager.py : name arithmetic (pathlib stem / suffix, str.replace) -/

/-- Split a file name around its last dot: `some (stem, rest)` with
`name = stem ++ dot :: rest`, or `none` when the name has no dot
(pathlib's `Path.stem` / `Path.suffix` on a plain file name). -/
def splitLastDot : List Char → Option (List Char × List Char)
  | [] => none
  | c :: rest =>
    match splitLastDot rest with
    | some (b, a) => some (c :: b, a)
    | none => if c = '.' then some ([], rest) else none

/-- `Path(name).stem`. -/
def stemOf (n : List Char) : List Char :=
  match splitLastDot n with
  | some (b, _) => b
  | none => n

/-- `Path(name).suffix` (with the dot). -/
def extOf (n : List Char) : List Char :=
  match splitLastDot n with
  | some (_, a) => '.' :: a
  | none => []

/-- `Path(name).with_suffix(suf)`. -/
def withSuffixName (n : List Char) (suf : List Char) : List Char :=
  stemOf n ++ suf

/-- Python `str.replace(needle, repl)` with the non-empty needle
`n0 :: ns`: replace every non-overlapping occurrence, scanning left to
right. -/
def pyReplace (n0 : Char) (ns : List Char) (repl : List Char) : List Char → List Char
  | [] => []
  | c :: rest =>
    if isPrefixL (n0 :: ns) (c :: rest) then repl ++ pyReplace n0 ns repl (rest.drop ns.length)
    else c :: pyReplace n0 ns repl rest
termination_by l => l.length
decreasing_by
  · simp only [List.length_cons, List.length_drop]
    omega
  · simp

/-- `filename.replace('.txt', X)` as used to derive every companion-file
name in file_manager.py. -/
def replaceTxt (repl : List Char) (filename : List Char) : List Char :=
  pyReplace '.' "txt".toList repl filename

/-- `'.txt' -> '_metadata.json'` (FileManager.save_with_metadata). -/
def metadataNameOf (filename : List Char) : List Char :=
  replaceTxt "_metadata.json".toList filename

/-- `'.txt' -> '_enhanced_metadata.json'` (_process_enhanced_content). -/
def enhancedNameOf (filename : List Char) : List Char :=
  replaceTxt "_enhanced_metadata.json".toList filename

/-- `'.txt' -> '_context_protocol.json'` (_process_enhanced_content). -/
def protocolNameOf (filename : List Char) : List Char :=
  replaceTxt "_context_protocol.json".toList filename

/-- `'.txt' -> '_condensed.txt'` (_process_enhanced_content). -/
def condensedNameOf (filename : List Char) : List Char :=
  replaceTxt "_condensed.txt".toList filename

/-- The duplicate-resolved name of `save_case_data`: stem, underscore,
second-precision `strftime('%Y%m%d_%H%M%S')` timestamp, original suffix. -/
def dupName (filename : List Char) (ts : List Char) : List Char :=
  stemOf filename ++ '_' :: (ts ++ extOf filename)

/-! ## file_manager.py : the output directory as state -/

/-- The output directory: an association list from file names to contents;
a write prepends and a lookup sees the most recent write. -/
def FS : Type :=
  List (List Char × String)

/-- Directory lookup: the content currently visible under a name. -/
def lookupFile : FS → List Char → Option String
  | [], _ => none
  | (n, c) :: rest, m => if n = m then some c else lookupFile rest m

/-- `Path.exists()`. -/
def existsFile (fs : FS) (n : List Char) : Bool :=
  (lookupFile fs n).isSome

/-- A completed write: afterwards the name maps to the new content. -/
def setFile (fs : FS) (n : List Char) (c : String) : FS :=
  (n, c) :: fs

/-- `FileManager.save_case_data`: size gate (strictly more than
`max_file_size_mb * 1024 * 1024` characters is rejected before any I/O),
duplicate resolution by timestamp suffix when the target exists, then the
write (temp file + atomic rename; the trace model below keeps the two
phases, here only the completed result is kept).  Returns the new
directory and the success flag. -/
def save_case_data (maxMb : Nat) (fs : FS) (ts : List Char) (content : String)
    (filename : List Char) : FS × Bool :=
  if maxMb * 1024 * 1024 < content.length then (fs, false)
  else
    let fp := if existsFile fs filename then dupName filename ts else filename
    (setFile fs fp content, true)

/-- `FileManager.save_with_metadata`: the raw save, then on success the
metadata JSON written directly (no temp file) under
`filename.replace('.txt', '_metadata.json')` — computed from the
caller-supplied filename, not from the duplicate-resolved raw path.
`md` is the serialized metadata blob. -/
def save_with_metadata (maxMb : Nat) (fs : FS) (ts : List Char) (content : String)
    (filename : List Char) (md : String) : FS × Bool :=
  let r := save_case_data maxMb fs ts content filename
  if r.2 then (setFile r.1 (metadataNameOf filename) md, true)
  else (r.1, false)

/-- `FileManager.save_enhanced_case_data`: the raw save; on success, when
context processing is enabled, background enrichment is queued (third
component) and the call returns without waiting. -/
def save_enhanced_case_data (maxMb : Nat) (fs : FS) (ts : List Char) (content : String)
    (filename : List Char) (ctxEnabled : Bool) : FS × Bool × Bool :=
  let r := save_case_data maxMb fs ts content filename
  if r.2 then (r.1, true, ctxEnabled) else (r.1, false, false)

/-! ## file_manager.py : write traces (for the atomicity claim) -/

/-- A primitive file-system mutation: a (possibly partially observable)
write of a name, or an atomic rename. -/
inductive FsOp where
  | write (name : List Char) (content : String)
  | rename (src dst : List Char)
deriving DecidableEq, Repr

/-- Does this operation write file `n` directly (so that a partially
written file could be observed under `n`)? -/
def writesTo : FsOp → List Char → Bool
  | FsOp.write m _, n => decide (m = n)
  | FsOp.rename _ _, _ => false

/-- A name is written atomically by a trace when no operation of the trace
writes it directly: its content can only appear via a rename. -/
def atomicFor (t : List FsOp) (n : List Char) : Bool :=
  t.all (fun op => !(writesTo op n))

/-- The temp-file-then-rename idiom of file_manager.py:
`temp_file = target.with_suffix('.tmp'); open(temp_file, 'w').write(...);
temp_file.replace(target)`. -/
def tempRenameOps (target : List Char) (c : String) : List FsOp :=
  [FsOp.write (withSuffixName target ".tmp".toList) c,
   FsOp.rename (withSuffixName target ".tmp".toList) target]

/-- Write trace of `save_case_data` for the duplicate-resolved target
`fp`. -/
def save_case_data_ops (fp : List Char) (content : String) : List FsOp :=
  tempRenameOps fp content

/-- Write trace of `save_with_metadata` (raw target `fp`, caller-supplied
`filename`): the raw temp/rename pair, then a direct
`open(metadata_path, 'w')` write of the metadata file. -/
def save_with_metadata_ops (fp filename : List Char) (content md : String) : List FsOp :=
  save_case_data_ops fp content ++ [FsOp.write (metadataNameOf filename) md]

/-- Write trace of `_process_enhanced_content` (successful analysis):
enhanced metadata, protocol and condensed files, each via temp + rename. -/
def process_enhanced_content_ops (filename : List Char) (e p c : String) : List FsOp :=
  tempRenameOps (enhancedNameOf filename) e ++
    tempRenameOps (protocolNameOf filename) p ++
    tempRenameOps (condensedNameOf filename) c

/-! ## file_manager.py : cleanup_old_files -/

/-- A directory entry as seen by the retention sweep: a name and a
modification time (seconds). -/
structure FsFile where
  name : List Char
  mtime : Int
deriving DecidableEq, Repr

/-- `glob("*.txt")` membership: the name ends with `.txt`. -/
def isTxtName (n : List Char) : Bool :=
  isPrefixL ".txt".toList.reverse n.reverse

/-- The basic-metadata companion derived in `cleanup_old_files`:
`file_path.with_suffix('.json').with_name(file_path.stem + '_metadata.json')`. -/
def mdCompanion (n : List Char) : List Char :=
  stemOf n ++ "_metadata.json".toList

/-- `Path.unlink()` by name. -/
def removeByName (fs : List FsFile) (n : List Char) : List FsFile :=
  fs.filter (fun f => !(decide (f.name = n)))

/-- `metadata_file.exists()`. -/
def existsByName (fs : List FsFile) (n : List Char) : Bool :=
  fs.any (fun f => decide (f.name = n))

/-- The loop body of `FileManager.cleanup_old_files` over the `*.txt` glob
snapshot: each snapshot entry older than the cutoff is unlinked and
counted, and its `_metadata.json` companion unlinked if present. -/
def cleanup_go (cutoff : Int) : List FsFile → List FsFile → Nat → Nat × List FsFile
  | [], fs, acc => (acc, fs)
  | f :: rest, fs, acc =>
    if f.mtime < cutoff then
      let fs1 := removeByName fs f.name
      let fs2 :=
        if existsByName fs1 (mdCompanion f.name) then removeByName fs1 (mdCompanion f.name)
        else fs1
      cleanup_go cutoff rest fs2 (acc + 1)
    else cleanup_go cutoff rest fs acc

/-- `FileManager.cleanup_old_files`: cutoff is
`now - days_old * 24 * 60 * 60`; returns the removal count and the
directory afterwards. -/
def cleanup_old_files (fs : List FsFile) (now daysOld : Int) : Nat × List FsFile :=
  cleanup_go (now - daysOld * 24 * 60 * 60) (fs.filter (fun f => isTxtName f.name)) fs 0

/-- Helper for stating what the sweep removes: the names contributed by
the old entries of the snapshot — each old entry's own name and its
metadata companion's. -/
def sweptNames (cutoff : Int) : List FsFile → List (List Char)
  | [] => []
  | f :: rest =>
    if f.mtime < cutoff then f.name :: mdCompanion f.name :: sweptNames cutoff rest
    else sweptNames cutoff rest

/-- Membership of a name in a name list (Boolean). -/
def nameMem (n : List Char) : List (List Char) → Bool
  | [] => false
  | m :: ms => if m = n then true else nameMem n ms

/-! ## Helper lemmas: directory lookups -/

theorem lookupFile_setFile_self (fs : FS) (n : List Char) (c : String) :
    lookupFile (setFile fs n c) n = some c := by
  simp [setFile, lookupFile]

theorem lookupFile_setFile_ne (fs : FS) (n m : List Char) (c : String) (h : n ≠ m) :
    lookupFile (setFile fs n c) m = lookupFile fs m := by
  simp [setFile, lookupFile, h]

/-! ## Helper lemmas: pathlib name arithmetic -/

theorem splitLastDot_eq_some (n b a : List Char) (h : splitLastDot n = some (b, a)) :
    n = b ++ '.' :: a := by
  induction n generalizing b a with
  | nil => simp [splitLastDot] at h
  | cons c rest ih =>
    rw [splitLastDot] at h
    cases hr : splitLastDot rest with
    | some p =>
      obtain ⟨b', a'⟩ := p
      rw [hr] at h
      simp only [Option.some.injEq, Prod.mk.injEq] at h
      obtain ⟨hb, ha⟩ := h
      subst hb; subst ha
      simpa using congrArg (c :: ·) (ih b' a' hr)
    | none =>
      rw [hr] at h
      by_cases hc : c = '.'
      · rw [if_pos hc] at h
        simp only [Option.some.injEq, Prod.mk.injEq] at h
        obtain ⟨hb, ha⟩ := h
        subst hb; subst ha
        simp [hc]
      · rw [if_neg hc] at h
        exact absurd h (by simp)

theorem stemOf_extOf (n : List Char) : stemOf n ++ extOf n = n := by
  unfold stemOf extOf
  cases h : splitLastDot n with
  | none => simp
  | some p =>
    obtain ⟨b, a⟩ := p
    simpa using (splitLastDot_eq_some n b a h).symm

theorem dupName_ne (fn ts : List Char) : dupName fn ts ≠ fn := by
  intro h
  have hlen := congrArg List.length h
  conv at hlen => rhs; rw [← stemOf_extOf fn]
  simp only [dupName, List.length_append, List.length_cons] at hlen
  omega

/-! ## Helper lemmas: the dedup cache -/

theorem dedup_step_length_le (cache : List Nat) (h : Nat) (hc : cache.length ≤ 100) :
    (dedup_step cache h).1.length ≤ 100 := by
  unfold dedup_step
  by_cases hm : h ∈ cache
  · simpa [hm] using hc
  · rw [if_neg hm]
    by_cases hl : 100 < (h :: cache).length
    · rw [if_pos hl]; simp
    · rw [if_neg hl]
      simp only [List.length_cons] at hl ⊢
      omega

theorem run_dedup_from_length (hs : List Nat) :
    ∀ cache b, cache.length ≤ 100 → (run_dedup_from cache b hs).1.length ≤ 100 := by
  induction hs with
  | nil => intro cache b hc; exact hc
  | cons h hs ih =>
    intro cache b hc
    exact ih _ _ (dedup_step_length_le cache h hc)

theorem run_dedup_from_true (hs : List Nat) :
    ∀ cache, (run_dedup_from cache true hs).2 = true := by
  induction hs with
  | nil => intro cache; rfl
  | cons h hs ih =>
    intro cache
    simpa [run_dedup_from] using ih (dedup_step cache h).1

theorem run_dedup_from_no_clear (hs : List Nat) :
    ∀ cache, cache.Nodup → (run_dedup_from cache false hs).2 = false →
      (∀ x, x ∈ hs ∨ x ∈ cache → x ∈ (run_dedup_from cache false hs).1) := by
  induction hs with
  | nil =>
    intro cache _ _ x hx
    rcases hx with hx | hx
    · simp at hx
    · exact hx
  | cons h hs ih =>
    intro cache hnd hflag x hx
    by_cases hm : h ∈ cache
    · have hstep : dedup_step cache h = (cache, false) := by simp [dedup_step, hm]
      rw [run_dedup_from, hstep] at hflag ⊢
      simp only [Bool.or_false] at hflag ⊢
      refine ih cache hnd hflag x ?_
      rcases hx with hx | hx
      · rcases List.mem_cons.mp hx with hx | hx
        · exact Or.inr (hx ▸ hm)
        · exact Or.inl hx
      · exact Or.inr hx
    · by_cases hl : 100 < (h :: cache).length
      · exfalso
        have hstep : dedup_step cache h = ([], true) := by
          unfold dedup_step; rw [if_neg hm, if_pos hl]
        rw [run_dedup_from, hstep] at hflag
        simp only [Bool.or_true] at hflag
        rw [run_dedup_from_true hs []] at hflag
        exact absurd hflag (by decide)
      · have hstep : dedup_step cache h = (h :: cache, false) := by
          unfold dedup_step; rw [if_neg hm, if_neg hl]
        rw [run_dedup_from, hstep] at hflag ⊢
        simp only [Bool.or_false] at hflag ⊢
        refine ih (h :: cache) (List.nodup_cons.mpr ⟨hm, hnd⟩) hflag x ?_
        rcases hx with hx | hx
        · rcases List.mem_cons.mp hx with hx | hx
          · exact Or.inr (hx ▸ List.mem_cons_self h cache)
          · exact Or.inl hx
        · exact Or.inr (List.mem_cons_of_mem h hx)

/-! ## Claim C3 -/

/-- C3: for every input text, the extracted case id is the result of
trying the four matchers in the fixed order "Support Request Number" /
"Case" / "CRI" / standalone 13+-digit run, taking the capture of the first
matcher that matches anywhere in the text; once an earlier matcher
matches, the later matchers cannot influence the result (the chain is an
ordered first-some). -/
theorem extract_case_id_is_ordered_fallback (t : List Char) :
    (extract_case_ids t).case_id =
      firstSome [caseIdSearch t, altCaseSearch t, criSearch t, simpleCaseSearch t] := by
  cases t with
  | nil => rfl
  | cons c cs =>
    unfold extract_case_ids
    simp only [List.isEmpty_cons, Bool.false_eq_true, if_false]
    cases h1 : caseIdSearch (c :: cs) <;>
      cases h2 : altCaseSearch (c :: cs) <;>
      cases h3 : criSearch (c :: cs) <;>
      cases h4 : simpleCaseSearch (c :: cs) <;>
      simp [firstSome, h1, h2, h3, h4]

/-! ## Claim C10 -/

/-- C10: whenever `is_valid_case_data` accepts a text, `generate_filename`
on that same text returns a filename, and that filename is non-empty; the
monitor's "could not generate filename" branch, guarded by the validity
check, is therefore unreachable. -/
theorem valid_case_data_generates_filename (t : List Char)
    (h : is_valid_case_data t = true) :
    ∃ f, generate_filename t = some f ∧ f ≠ [] := by
  unfold is_valid_case_data at h
  by_cases he : t.isEmpty
  · rw [if_pos he] at h
    exact absurd h (by decide)
  · rw [if_neg he] at h
    unfold generate_filename
    cases hicm : (extract_case_ids t).icm_id with
    | some i =>
      cases hcase : (extract_case_ids t).case_id with
      | some c₁ =>
        exact ⟨i ++ '_' :: (c₁ ++ ".txt".toList), by simp [hicm, hcase], by simp⟩
      | none =>
        exact ⟨"ICM_".toList ++ (i ++ ".txt".toList), by simp [hicm, hcase], by simp⟩
    | none =>
      cases hcase : (extract_case_ids t).case_id with
      | some c₁ =>
        exact ⟨"Case_".toList ++ (c₁ ++ ".txt".toList), by simp [hicm, hcase], by simp⟩
      | none =>
        simp [hicm, hcase] at h

/-- Witness for C10 at a concrete clipboard text. -/
theorem valid_case_data_generates_filename_witness :
    is_valid_case_data "ICM 123456789".toList = true ∧
    ∃ f, generate_filename "ICM 123456789".toList = some f ∧ f ≠ [] :=
  ⟨by decide, valid_case_data_generates_filename _ (by decide)⟩

/-! ## Claim C7 -/

/-- C7: chunk classification equals the first matching category of the
fixed precedence list error, critical, resolution, problem, customer,
temporal, configuration, else general; in particular a chunk containing
both an error term and a critical term is classified as error
information. -/
theorem classify_content_type_ordered (s : List Char) :
    classify_content_type s = classifyByOrderedList s ∧
    (anyKeyword (lowerL s) errorKws = true →
      anyKeyword (lowerL s) criticalKws = true →
      classify_content_type s = "error_information") := by
  constructor
  · rfl
  · intro he _
    unfold classify_content_type
    rw [if_pos he]

/-- Witness for C7 at a chunk containing both an error term and a critical
term. -/
theorem classify_content_type_ordered_witness :
    anyKeyword (lowerL "Critical ERROR seen".toList) errorKws = true ∧
    anyKeyword (lowerL "Critical ERROR seen".toList) criticalKws = true ∧
    classify_content_type "Critical ERROR seen".toList = "error_information" :=
  ⟨by decide, by decide,
    (classify_content_type_ordered "Critical ERROR seen".toList).2 (by decide) (by decide)⟩

/-! ## Claim C8 -/

/-- C8: the protocol's `context_chunks` list has at most five entries, is
a sublist of the per-chunk analyses taken in original chunk order (so the
entries are never re-sorted by priority), and every entry has priority
high or medium. -/
theorem protocol_context_chunks_spec (chunks : List (List Char)) :
    (protocol_context_chunks chunks).length ≤ 5 ∧
    List.Sublist (protocol_context_chunks chunks) (chunks.map protoEntry) ∧
    (protocol_context_chunks chunks).all
      (fun e => e.priority = "high" || e.priority = "medium") = true := by
  refine ⟨?_, ?_, ?_⟩
  · exact List.length_take_le 5 _
  · exact (List.take_sublist 5 _).trans (List.filter_sublist _)
  · rw [List.all_eq_true]
    intro e he
    have he' := (List.take_sublist 5 _).subset he
    exact (List.mem_filter.mp he').2

/-! ## Claim C4 -/

/-- C4: in any monitoring session, after every poll cycle the dedup cache
holds at most 100 hashes, and as soon as more than 100 distinct contents
have reached the dedup check, the cache has been cleared wholesale at
least once. -/
theorem dedup_cache_bound (hs : List Nat) :
    (run_dedup hs).1.length ≤ 100 ∧
    (100 < hs.dedup.length → (run_dedup hs).2 = true) := by
  constructor
  · exact run_dedup_from_length hs [] false (by simp)
  · intro hgt
    by_contra hfl
    have hfl' : (run_dedup hs).2 = false := by
      cases hf : (run_dedup hs).2
      · rfl
      · exact absurd hf hfl
    have hin := run_dedup_from_no_clear hs [] List.nodup_nil hfl'
    have hsub : hs.dedup ⊆ (run_dedup hs).1 := by
      intro x hx
      exact hin x (Or.inl (List.mem_dedup.mp hx))
    have hle : hs.dedup.length ≤ (run_dedup hs).1.length :=
      (List.subperm_of_subset (List.nodup_dedup hs) hsub).length_le
    have hcap := run_dedup_from_length hs [] false (by simp)
    unfold run_dedup at hle hcap
    omega

/-- Witness for C4: a session with 101 distinct contents clears the
cache. -/
theorem dedup_cache_bound_witness :
    100 < (List.range 101).dedup.length ∧ (run_dedup (List.range 101)).2 = true := by
  have h : 100 < (List.range 101).dedup.length := by
    rw [List.dedup_eq_self.mpr (List.nodup_range 101)]
    simp
  exact ⟨h, (dedup_cache_bound (List.range 101)).2 h⟩

/-! ## Claim C6 -/

/-- C6: content exceeding the configured byte ceiling is rejected by every
save path before any file-system mutation: the directory is unchanged, the
result is failure, and no background enrichment is queued (hence no
enriched artifact can appear); nothing is truncated because nothing is
written at all. -/
theorem size_gate_rejects_before_io (maxMb : Nat) (fs : FS) (ts : List Char)
    (content : String) (filename : List Char) (md : String) (ctxEnabled : Bool)
    (h : maxMb * 1024 * 1024 < content.length) :
    save_case_data maxMb fs ts content filename = (fs, false) ∧
    save_with_metadata maxMb fs ts content filename md = (fs, false) ∧
    save_enhanced_case_data maxMb fs ts content filename ctxEnabled = (fs, false, false) := by
  have h1 : save_case_data maxMb fs ts content filename = (fs, false) := by
    unfold save_case_data
    rw [if_pos h]
  refine ⟨h1, ?_, ?_⟩
  · unfold save_with_metadata
    rw [h1]
    simp
  · unfold save_enhanced_case_data
    rw [h1]
    simp

/-- Witness for C6 with a zero-megabyte ceiling and a one-character
content. -/
theorem size_gate_rejects_before_io_witness :
    0 * 1024 * 1024 < ("x" : String).length ∧
    save_with_metadata 0 [] "t".toList "x" "a.txt".toList "m" = ([], false) :=
  ⟨by decide,
    (size_gate_rejects_before_io 0 [] "t".toList "x" "a.txt".toList "m" true (by decide)).2.1⟩

/-! ## Claim C2 -/

/-- C2: two successful raw saves of the same target filename — whether in
the same second or in different seconds (the timestamps `t1`, `t2` are
arbitrary and may be equal) — leave two distinct files: the first save
keeps the original filename with its content intact, the second lands
under the timestamp-suffixed name, and every other name in the directory
is untouched.  The directory is assumed to hold neither the filename nor
the timestamp-suffixed variant beforehand. -/
theorem duplicate_name_resolution (maxMb : Nat) (fs : FS) (t1 t2 : List Char)
    (c1 c2 : String) (fn : List Char)
    (hs1 : ¬ maxMb * 1024 * 1024 < c1.length)
    (hs2 : ¬ maxMb * 1024 * 1024 < c2.length)
    (hfn : lookupFile fs fn = none)
    (hdup : lookupFile fs (dupName fn t2) = none) :
    (save_case_data maxMb fs t1 c1 fn).2 = true ∧
    (save_case_data maxMb (save_case_data maxMb fs t1 c1 fn).1 t2 c2 fn).2 = true ∧
    dupName fn t2 ≠ fn ∧
    lookupFile (save_case_data maxMb (save_case_data maxMb fs t1 c1 fn).1 t2 c2 fn).1 fn
      = some c1 ∧
    lookupFile (save_case_data maxMb (save_case_data maxMb fs t1 c1 fn).1 t2 c2 fn).1
      (dupName fn t2) = some c2 ∧
    ∀ n, n ≠ fn → n ≠ dupName fn t2 →
      lookupFile (save_case_data maxMb (save_case_data maxMb fs t1 c1 fn).1 t2 c2 fn).1 n
        = lookupFile fs n := by
  have e1 : save_case_data maxMb fs t1 c1 fn = (setFile fs fn c1, true) := by
    unfold save_case_data
    rw [if_neg hs1]
    simp [existsFile, hfn]
  have e2 : save_case_data maxMb (setFile fs fn c1) t2 c2 fn
      = (setFile (setFile fs fn c1) (dupName fn t2) c2, true) := by
    unfold save_case_data
    rw [if_neg hs2]
    simp [existsFile, lookupFile_setFile_self]
  rw [e1]
  simp only
  rw [e2]
  simp only
  refine ⟨trivial, trivial, dupName_ne fn t2, ?_, ?_, ?_⟩
  · rw [lookupFile_setFile_ne _ _ _ _ (dupName_ne fn t2), lookupFile_setFile_self]
  · exact lookupFile_setFile_self _ _ _
  · intro n hn hd
    rw [lookupFile_setFile_ne _ _ _ _ (fun h => hd h.symm),
      lookupFile_setFile_ne _ _ _ _ (fun h => hn h.symm)]

/-- Witness for C2: a fresh directory, the same filename saved twice with
the same second-precision timestamp. -/
theorem duplicate_name_resolution_witness :
    lookupFile
        (save_case_data 1 (save_case_data 1 [] "20250101_120000".toList "a"
          "Case_1234567890123.txt".toList).1 "20250101_120000".toList "b"
          "Case_1234567890123.txt".toList).1
        "Case_1234567890123.txt".toList = some "a" ∧
    lookupFile
        (save_case_data 1 (save_case_data 1 [] "20250101_120000".toList "a"
          "Case_1234567890123.txt".toList).1 "20250101_120000".toList "b"
          "Case_1234567890123.txt".toList).1
        (dupName "Case_1234567890123.txt".toList "20250101_120000".toList) = some "b" := by
  have h := duplicate_name_resolution 1 [] "20250101_120000".toList "20250101_120000".toList
    "a" "b" "Case_1234567890123.txt".toList (by decide) (by decide) rfl rfl
  exact ⟨h.2.2.2.1, h.2.2.2.2.1⟩

/-! ## Helper lemmas: str.replace and pathlib suffixes on clean names -/

theorem isPrefixL_txt_boundary (b : Char) (bs : List Char)
    (h1 : isPrefixL ['.', 't', 'x', 't'] (b :: bs) = false) :
    isPrefixL ['.', 't', 'x', 't'] (b :: (bs ++ ['.', 't', 'x', 't'])) = false := by
  match bs with
  | [] => simp [isPrefixL]
  | [x] => simp [isPrefixL]
  | [x, y] => simp [isPrefixL]
  | x :: y :: z :: rest =>
    simp only [isPrefixL, List.cons_append] at h1 ⊢
    simpa using h1

theorem pyReplace_nil (n0 : Char) (ns repl : List Char) :
    pyReplace n0 ns repl [] = [] := by
  simp [pyReplace]

theorem pyReplace_cons_pos (n0 : Char) (ns repl : List Char) (c : Char) (rest : List Char)
    (h : isPrefixL (n0 :: ns) (c :: rest) = true) :
    pyReplace n0 ns repl (c :: rest) = repl ++ pyReplace n0 ns repl (rest.drop ns.length) := by
  rw [pyReplace]
  rw [if_pos h]

theorem pyReplace_cons_neg (n0 : Char) (ns repl : List Char) (c : Char) (rest : List Char)
    (h : isPrefixL (n0 :: ns) (c :: rest) = false) :
    pyReplace n0 ns repl (c :: rest) = c :: pyReplace n0 ns repl rest := by
  rw [pyReplace]
  rw [if_neg (by simp [h])]

/-- When `.txt` occurs in the file name only as its suffix, `str.replace`
replaces exactly that suffix. -/
theorem replaceTxt_of_clean_base (repl : List Char) :
    ∀ base, containsL base ['.', 't', 'x', 't'] = false →
      replaceTxt repl (base ++ ['.', 't', 'x', 't']) = base ++ repl := by
  intro base
  unfold replaceTxt
  rw [show ("txt".toList : List Char) = ['t', 'x', 't'] from rfl]
  induction base with
  | nil =>
    intro _
    rw [List.nil_append]
    rw [show (['.', 't', 'x', 't'] : List Char) = '.' :: ['t', 'x', 't'] from rfl]
    rw [pyReplace_cons_pos _ _ _ _ _ (by decide)]
    simp [pyReplace_nil]
  | cons b bs ih =>
    intro hb
    have hb1 : isPrefixL ['.', 't', 'x', 't'] (b :: bs) = false :=
      (Bool.or_eq_false_iff.mp hb).1
    have hb2 : containsL bs ['.', 't', 'x', 't'] = false :=
      (Bool.or_eq_false_iff.mp hb).2
    rw [List.cons_append]
    rw [pyReplace_cons_neg _ _ _ _ _ (isPrefixL_txt_boundary b bs hb1)]
    rw [ih hb2]
    rfl

theorem splitLastDot_no_dot (t : List Char) (ht : ∀ c ∈ t, c ≠ '.') :
    splitLastDot t = none := by
  induction t with
  | nil => rfl
  | cons c rest ih =>
    rw [splitLastDot]
    rw [ih (fun x hx => ht x (List.mem_cons_of_mem c hx))]
    rw [if_neg (ht c (List.mem_cons_self c rest))]

theorem splitLastDot_append_dotfree (s t : List Char) (ht : ∀ c ∈ t, c ≠ '.') :
    splitLastDot (s ++ '.' :: t) = some (s, t) := by
  induction s with
  | nil =>
    rw [List.nil_append, splitLastDot, splitLastDot_no_dot t ht]
    simp
  | cons c cs ih =>
    rw [List.cons_append, splitLastDot, ih]

theorem stemOf_append_dotfree (s t : List Char) (ht : ∀ c ∈ t, c ≠ '.') :
    stemOf (s ++ '.' :: t) = s := by
  unfold stemOf
  rw [splitLastDot_append_dotfree s t ht]

theorem extOf_append_dotfree (s t : List Char) (ht : ∀ c ∈ t, c ≠ '.') :
    extOf (s ++ '.' :: t) = '.' :: t := by
  unfold extOf
  rw [splitLastDot_append_dotfree s t ht]

/-! ## Claim C9 -/

/-- C9: when the raw save succeeds, the basic metadata file is written at
the name obtained by replacing the `.txt` suffix of the caller-supplied
filename (which contains `.txt` only as its suffix) with `_metadata.json`
— computed from the original filename, not from the duplicate-resolved raw
path.  When the filename already exists, the raw content is diverted to
the timestamp-suffixed name while the metadata keeps the un-suffixed name,
and the metadata lookup afterwards yields the new blob even if a metadata
file was already present under that name. -/
theorem metadata_path_from_original_filename (maxMb : Nat) (fs : FS) (ts : List Char)
    (content c0 md : String) (base : List Char)
    (hsz : ¬ maxMb * 1024 * 1024 < content.length)
    (hb : containsL base ['.', 't', 'x', 't'] = false)
    (hex : lookupFile fs (base ++ ['.', 't', 'x', 't']) = some c0)
    (hts : ts.length = 15) :
    (save_with_metadata maxMb fs ts content (base ++ ['.', 't', 'x', 't']) md).2 = true ∧
    metadataNameOf (base ++ ['.', 't', 'x', 't']) = base ++ "_metadata.json".toList ∧
    lookupFile (save_with_metadata maxMb fs ts content (base ++ ['.', 't', 'x', 't']) md).1
      (base ++ "_metadata.json".toList) = some md ∧
    lookupFile (save_with_metadata maxMb fs ts content (base ++ ['.', 't', 'x', 't']) md).1
      (base ++ ['.', 't', 'x', 't']) = some c0 ∧
    lookupFile (save_with_metadata maxMb fs ts content (base ++ ['.', 't', 'x', 't']) md).1
      (dupName (base ++ ['.', 't', 'x', 't']) ts) = some content := by
  have hmd : metadataNameOf (base ++ ['.', 't', 'x', 't'])
      = base ++ "_metadata.json".toList := by
    unfold metadataNameOf
    exact replaceTxt_of_clean_base _ base hb
  have hstem : stemOf (base ++ ['.', 't', 'x', 't']) = base :=
    stemOf_append_dotfree base ['t', 'x', 't'] (by decide)
  have hext : extOf (base ++ ['.', 't', 'x', 't']) = ['.', 't', 'x', 't'] :=
    extOf_append_dotfree base ['t', 'x', 't'] (by decide)
  have hdupf : dupName (base ++ ['.', 't', 'x', 't']) ts
      = base ++ '_' :: (ts ++ ['.', 't', 'x', 't']) := by
    unfold dupName
    rw [hstem, hext]
  have hne_md_fn : base ++ "_metadata.json".toList ≠ base ++ ['.', 't', 'x', 't'] := by
    intro h
    have hlen := congrArg List.length h
    simp [List.length_append] at hlen
  have hne_md_dup : base ++ "_metadata.json".toList
      ≠ dupName (base ++ ['.', 't', 'x', 't']) ts := by
    rw [hdupf]
    intro h
    have hlen := congrArg List.length h
    simp [List.length_append, hts] at hlen
  have hne_dup_fn : dupName (base ++ ['.', 't', 'x', 't']) ts
      ≠ base ++ ['.', 't', 'x', 't'] :=
    dupName_ne _ ts
  have e1 : save_case_data maxMb fs ts content (base ++ ['.', 't', 'x', 't'])
      = (setFile fs (dupName (base ++ ['.', 't', 'x', 't']) ts) content, true) := by
    unfold save_case_data
    rw [if_neg hsz]
    simp [existsFile, hex]
  have e2 : save_with_metadata maxMb fs ts content (base ++ ['.', 't', 'x', 't']) md
      = (setFile (setFile fs (dupName (base ++ ['.', 't', 'x', 't']) ts) content)
          (metadataNameOf (base ++ ['.', 't', 'x', 't'])) md, true) := by
    unfold save_with_metadata
    rw [e1]
    simp
  rw [e2]
  refine ⟨rfl, hmd, ?_, ?_, ?_⟩
  · rw [hmd, lookupFile_setFile_self]
  · rw [hmd, lookupFile_setFile_ne _ _ _ _ hne_md_fn,
      lookupFile_setFile_ne _ _ _ _ hne_dup_fn]
    exact hex
  · rw [hmd, lookupFile_setFile_ne _ _ _ _ hne_md_dup, lookupFile_setFile_self]

/-- Witness for C9: concrete directory holding the raw file and an old
metadata blob; the second save diverts the raw content and overwrites the
metadata in place. -/
theorem metadata_path_from_original_filename_witness :
    lookupFile (save_with_metadata 1 [("Case_1234567890123.txt".toList, "old"),
        ("Case_1234567890123_metadata.json".toList, "oldmd")] "20250101_120000".toList
        "new" ("Case_1234567890123".toList ++ ['.', 't', 'x', 't']) "newmd").1
      ("Case_1234567890123".toList ++ "_metadata.json".toList) = some "newmd" ∧
    lookupFile (save_with_metadata 1 [("Case_1234567890123.txt".toList, "old"),
        ("Case_1234567890123_metadata.json".toList, "oldmd")] "20250101_120000".toList
        "new" ("Case_1234567890123".toList ++ ['.', 't', 'x', 't']) "newmd").1
      ("Case_1234567890123".toList ++ ['.', 't', 'x', 't']) = some "old" := by
  have h := metadata_path_from_original_filename 1
    [("Case_1234567890123.txt".toList, "old"),
     ("Case_1234567890123_metadata.json".toList, "oldmd")]
    "20250101_120000".toList "new" "old" "newmd" "Case_1234567890123".toList
    (by decide) (by decide) (by decide) (by decide)
  exact ⟨h.2.2.1, h.2.2.2.1⟩

/-! ## Claim C1 -/

theorem append_ne_of_ne (s A B : List Char) (h : A ≠ B) : s ++ A ≠ s ++ B :=
  fun hh => h (List.append_cancel_left hh)

theorem atomicFor_tempRename (target n : List Char) (c : String)
    (h : withSuffixName target ".tmp".toList ≠ n) :
    atomicFor (tempRenameOps target c) n = true := by
  have h' : withSuffixName target ['.', 't', 'm', 'p'] ≠ n := h
  simp [atomicFor, tempRenameOps, writesTo, h']

theorem atomicFor_append (t1 t2 : List FsOp) (n : List Char) :
    atomicFor (t1 ++ t2) n = (atomicFor t1 n && atomicFor t2 n) := by
  simp [atomicFor, List.all_append]

theorem withSuffixName_split (base mid tail : List Char) (htail : ∀ c ∈ tail, c ≠ '.') :
    withSuffixName (base ++ (mid ++ '.' :: tail)) ".tmp".toList
      = base ++ (mid ++ ".tmp".toList) := by
  unfold withSuffixName
  rw [show base ++ (mid ++ '.' :: tail) = (base ++ mid) ++ '.' :: tail by
    rw [List.append_assoc]]
  rw [stemOf_append_dotfree _ tail htail]
  rw [List.append_assoc]

/-- C1 amended: the raw capture file (under its original or its
timestamp-suffixed name), the enriched metadata file, the protocol file
and the condensed file are all written to a temporary sibling first and
moved into place by an atomic rename — no operation of their traces
writes the final name directly.  The basic metadata file is the
exception: see the counterexample, it is written directly to its final
name. -/
theorem save_traces_atomic (base ts : List Char) (content e p c : String)
    (hb : containsL base ['.', 't', 'x', 't'] = false) :
    atomicFor (save_case_data_ops (base ++ ['.', 't', 'x', 't']) content)
      (base ++ ['.', 't', 'x', 't']) = true ∧
    atomicFor (save_case_data_ops (dupName (base ++ ['.', 't', 'x', 't']) ts) content)
      (dupName (base ++ ['.', 't', 'x', 't']) ts) = true ∧
    atomicFor (process_enhanced_content_ops (base ++ ['.', 't', 'x', 't']) e p c)
      (enhancedNameOf (base ++ ['.', 't', 'x', 't'])) = true ∧
    atomicFor (process_enhanced_content_ops (base ++ ['.', 't', 'x', 't']) e p c)
      (protocolNameOf (base ++ ['.', 't', 'x', 't'])) = true ∧
    atomicFor (process_enhanced_content_ops (base ++ ['.', 't', 'x', 't']) e p c)
      (condensedNameOf (base ++ ['.', 't', 'x', 't'])) = true := by
  have henh : enhancedNameOf (base ++ ['.', 't', 'x', 't'])
      = base ++ "_enhanced_metadata.json".toList :=
    replaceTxt_of_clean_base _ base hb
  have hpro : protocolNameOf (base ++ ['.', 't', 'x', 't'])
      = base ++ "_context_protocol.json".toList :=
    replaceTxt_of_clean_base _ base hb
  have hcon : condensedNameOf (base ++ ['.', 't', 'x', 't'])
      = base ++ "_condensed.txt".toList :=
    replaceTxt_of_clean_base _ base hb
  have htmp_raw : withSuffixName (base ++ ['.', 't', 'x', 't']) ".tmp".toList
      = base ++ ".tmp".toList := by
    unfold withSuffixName
    rw [stemOf_append_dotfree base ['t', 'x', 't'] (by decide)]
  have htmp_enh : withSuffixName (base ++ "_enhanced_metadata.json".toList) ".tmp".toList
      = base ++ "_enhanced_metadata.tmp".toList := by
    rw [show ("_enhanced_metadata.json".toList : List Char)
      = "_enhanced_metadata".toList ++ '.' :: "json".toList from rfl]
    rw [withSuffixName_split base _ _ (by decide)]
    rfl
  have htmp_pro : withSuffixName (base ++ "_context_protocol.json".toList) ".tmp".toList
      = base ++ "_context_protocol.tmp".toList := by
    rw [show ("_context_protocol.json".toList : List Char)
      = "_context_protocol".toList ++ '.' :: "json".toList from rfl]
    rw [withSuffixName_split base _ _ (by decide)]
    rfl
  have htmp_con : withSuffixName (base ++ "_condensed.txt".toList) ".tmp".toList
      = base ++ "_condensed.tmp".toList := by
    rw [show ("_condensed.txt".toList : List Char)
      = "_condensed".toList ++ '.' :: "txt".toList from rfl]
    rw [withSuffixName_split base _ _ (by decide)]
    rfl
  have hdupf : dupName (base ++ ['.', 't', 'x', 't']) ts
      = (base ++ '_' :: ts) ++ '.' :: ['t', 'x', 't'] := by
    unfold dupName
    rw [stemOf_append_dotfree base ['t', 'x', 't'] (by decide),
      extOf_append_dotfree base ['t', 'x', 't'] (by decide)]
    simp
  refine ⟨?_, ?_, ?_, ?_, ?_⟩
  · exact atomicFor_tempRename _ _ _
      (htmp_raw ▸ append_ne_of_ne base _ _ (by decide))
  · refine atomicFor_tempRename _ _ _ ?_
    rw [hdupf]
    rw [show ((base ++ '_' :: ts) ++ '.' :: ['t', 'x', 't'] : List Char)
      = (base ++ '_' :: ts) ++ ([] ++ '.' :: ['t', 'x', 't']) by simp]
    rw [withSuffixName_split (base ++ '_' :: ts) [] ['t', 'x', 't'] (by decide)]
    simp only [List.nil_append]
    exact append_ne_of_ne _ _ _ (by decide)
  · unfold process_enhanced_content_ops
    rw [atomicFor_append, atomicFor_append]
    rw [atomicFor_tempRename _ _ _ (by rw [henh, htmp_enh]; exact append_ne_of_ne base _ _ (by decide)),
      atomicFor_tempRename _ _ _ (by rw [hpro, htmp_pro, henh]; exact append_ne_of_ne base _ _ (by decide)),
      atomicFor_tempRename _ _ _ (by rw [hcon, htmp_con, henh]; exact append_ne_of_ne base _ _ (by decide))]
    rfl
  · unfold process_enhanced_content_ops
    rw [atomicFor_append, atomicFor_append]
    rw [atomicFor_tempRename _ _ _ (by rw [henh, htmp_enh, hpro]; exact append_ne_of_ne base _ _ (by decide)),
      atomicFor_tempRename _ _ _ (by rw [hpro, htmp_pro]; exact append_ne_of_ne base _ _ (by decide)),
      atomicFor_tempRename _ _ _ (by rw [hcon, htmp_con, hpro]; exact append_ne_of_ne base _ _ (by decide))]
    rfl
  · unfold process_enhanced_content_ops
    rw [atomicFor_append, atomicFor_append]
    rw [atomicFor_tempRename _ _ _ (by rw [henh, htmp_enh, hcon]; exact append_ne_of_ne base _ _ (by decide)),
      atomicFor_tempRename _ _ _ (by rw [hpro, htmp_pro, hcon]; exact append_ne_of_ne base _ _ (by decide)),
      atomicFor_tempRename _ _ _ (by rw [hcon, htmp_con]; exact append_ne_of_ne base _ _ (by decide))]
    rfl

/-- Witness for C1 (amended) at a concrete filename and timestamp. -/
theorem save_traces_atomic_witness :
    containsL "Case_1234567890123".toList ['.', 't', 'x', 't'] = false ∧
    atomicFor (save_case_data_ops ("Case_1234567890123".toList ++ ['.', 't', 'x', 't']) "raw")
      ("Case_1234567890123".toList ++ ['.', 't', 'x', 't']) = true :=
  ⟨by decide,
    (save_traces_atomic "Case_1234567890123".toList "20250101_120000".toList
      "raw" "e" "p" "c" (by decide)).1⟩

/-- C1 counterexample: the basic metadata file of `save_with_metadata` is
written by a direct `open(metadata_path, 'w')` — the trace writes the
final metadata name itself, with no temporary sibling and no rename, so
the write pattern claimed for all five artifact kinds fails for the basic
metadata file. -/
theorem basic_metadata_write_not_atomic :
    atomicFor
      (save_with_metadata_ops ("Case_1234567890123".toList ++ ['.', 't', 'x', 't'])
        ("Case_1234567890123".toList ++ ['.', 't', 'x', 't']) "raw" "md")
      (metadataNameOf ("Case_1234567890123".toList ++ ['.', 't', 'x', 't'])) = false := by
  have hmd : metadataNameOf ("Case_1234567890123".toList ++ ['.', 't', 'x', 't'])
      = "Case_1234567890123".toList ++ "_metadata.json".toList :=
    replaceTxt_of_clean_base _ "Case_1234567890123".toList (by decide)
  unfold save_with_metadata_ops save_case_data_ops
  rw [hmd]
  decide

/-! ## Helper lemmas: the retention sweep -/

theorem nameMem_cons (n m : List Char) (ms : List (List Char)) :
    nameMem n (m :: ms) = (decide (m = n) || nameMem n ms) := by
  rw [nameMem]
  by_cases h : m = n
  · rw [if_pos h]
    simp [h]
  · rw [if_neg h]
    simp [h]

theorem removeByName_of_not_exists (fs : List FsFile) (n : List Char)
    (h : existsByName fs n = false) : removeByName fs n = fs := by
  induction fs with
  | nil => rfl
  | cons f rest ih =>
    unfold existsByName at h
    simp only [List.any_cons, Bool.or_eq_false_iff] at h
    unfold removeByName
    rw [List.filter_cons]
    rw [if_pos (by simp [h.1])]
    exact congrArg (f :: ·) (ih (by unfold existsByName; exact h.2))

theorem md_remove_eq (fs1 : List FsFile) (m : List Char) :
    (if existsByName fs1 m then removeByName fs1 m else fs1) = removeByName fs1 m := by
  by_cases h : existsByName fs1 m = true
  · rw [if_pos h]
  · rw [if_neg h]
    have hf : existsByName fs1 m = false := by
      revert h
      cases existsByName fs1 m <;> simp
    exact (removeByName_of_not_exists fs1 m hf).symm

/-- The sweep loop, characterised: it counts exactly the snapshot entries
older than the cutoff, and the directory afterwards is the original one
with exactly the old snapshot entries' names and their metadata-companion
names filtered out. -/
theorem cleanup_go_spec (cutoff : Int) (snap : List FsFile) :
    ∀ fs acc, cleanup_go cutoff snap fs acc
      = (acc + (snap.filter (fun f => decide (f.mtime < cutoff))).length,
         fs.filter (fun f => !(nameMem f.name (sweptNames cutoff snap)))) := by
  induction snap with
  | nil =>
    intro fs acc
    simp [cleanup_go, sweptNames, nameMem]
  | cons f rest ih =>
    intro fs acc
    by_cases hm : f.mtime < cutoff
    · rw [cleanup_go]
      simp only [if_pos hm]
      rw [md_remove_eq]
      rw [ih]
      rw [sweptNames]
      rw [if_pos hm]
      refine Prod.ext ?_ ?_
      · simp only [List.filter_cons, hm]
        simp
        omega
      · show (removeByName (removeByName fs f.name) (mdCompanion f.name)).filter _ = _
        unfold removeByName
        rw [List.filter_filter, List.filter_filter]
        apply List.filter_congr
        intro x _
        rw [nameMem_cons, nameMem_cons]
        by_cases h1 : x.name = f.name
        · simp [h1]
        · by_cases h2 : x.name = mdCompanion f.name
          · simp [h1, h2, Ne.symm h1]
          · simp [h1, h2, Ne.symm h1, Ne.symm h2]
    · rw [cleanup_go]
      simp only [if_neg hm]
      rw [ih]
      rw [sweptNames]
      rw [if_neg hm]
      refine Prod.ext ?_ ?_
      · simp only [List.filter_cons, hm]
        simp
      · rfl

/-! ## Claim C5 -/

/-- C5 amended: the retention sweep removes exactly the `.txt` files whose
modification time is older than the cutoff — the raw captures AND the
condensed `_condensed.txt` artifacts alike, since the sweep globs
`*.txt` — together with the `_metadata.json` companions of the removed
`.txt` files; every file carrying none of those names (in particular every
enriched-metadata and protocol JSON file) survives, and the returned count
equals the number of old `.txt` files removed (condensed files included,
so it can exceed the number of raw captures removed). -/
theorem cleanup_old_files_spec (fs : List FsFile) (now daysOld : Int) :
    cleanup_old_files fs now daysOld
      = ((fs.filter (fun f => isTxtName f.name
            && decide (f.mtime < now - daysOld * 24 * 60 * 60))).length,
         fs.filter (fun f => !(nameMem f.name
            (sweptNames (now - daysOld * 24 * 60 * 60)
              (fs.filter (fun f => isTxtName f.name)))))) := by
  unfold cleanup_old_files
  rw [cleanup_go_spec]
  rw [List.filter_filter]
  simp only [Nat.zero_add]
  refine Prod.ext ?_ rfl
  exact congrArg List.length (List.filter_congr (fun x _ => Bool.and_comm _ _))

/-- C5 counterexample: with an aged raw capture `A.txt` and its aged
condensed artifact `A_condensed.txt` on disk, the sweep deletes both and
reports two removals, although the claim promises that condensed files are
left unchanged and that the count equals the number of raw captures
removed (here one). -/
theorem cleanup_removes_condensed_counterexample :
    cleanup_old_files
      [⟨"A.txt".toList, 0⟩, ⟨"A_condensed.txt".toList, 0⟩,
       ⟨"A_enhanced_metadata.json".toList, 0⟩] (86400 * 31) 30
      = (2, [⟨"A_enhanced_metadata.json".toList, 0⟩]) := by
  decide

end CaseClipper
